import Mathlib

/-!
Verification development for the ebar repository: the View Path data model
(crates/view: field.rs, segment.rs, view_path.rs, parser.rs) and the JSON
query engine (crates/ejson/src/lib.rs).

Strings are embedded as lists of characters (`Str`).  Rust machine integers
are embedded as `Int`/`Nat` with explicit wrapping where the code casts
(`i as usize`, `i as isize`).  Fallible or panicking operations return
`Option`.
-/

namespace Ebar

/-- Character-list model of Rust strings. -/
abbrev Str := List Char

/-- The double-quote character. -/
def dq : Char := Char.ofNat 34

/-- 2^63 as a natural number (Rust `isize::MAX + 1`; arrays never reach this length). -/
def two63n : Nat := 9223372036854775808

/-- 2^63 as an integer. -/
def two63 : Int := 9223372036854775808

/-- 2^64 as an integer (the size of the `usize`/`isize` value space). -/
def two64 : Int := 18446744073709551616

/-- `i as usize`: two's-complement cast of a signed value to an unsigned 64-bit offset
(crates/ejson/src/lib.rs line 109). -/
def usizeCast (i : Int) : Nat := (i % two64).toNat

/-- `i as isize`: cast of an unsigned 64-bit value to a signed one
(crates/ejson/src/lib.rs line 55). -/
def isizeOfNat (n : Nat) : Int := ((n : Int) + two63) % two64 - two63

/-- `[0-9A-Za-z_]`, the trailing class of the field-name pattern (field.rs line 10). -/
def isWordChar (c : Char) : Bool := c.isAlphanum || c == '_'

/-- `[A-Za-z_]`, the mandatory non-digit character of the field-name pattern. -/
def isIdentStart (c : Char) : Bool := c.isAlpha || c == '_'

/-- `is_valid_field_name` (field.rs lines 8-18): whether the whole string matches the
regex `^[0-9]*[a-zA-Z_][0-9a-zA-Z_]*$`.  Since `[a-zA-Z_]` cannot match a digit, the
starred digit class must consume exactly the maximal leading digit run, so the regex
is equivalent to: after dropping leading digits, the remainder is nonempty, starts
with `[A-Za-z_]`, and continues with `[0-9A-Za-z_]` characters. -/
def is_valid_field_name (name : Str) : Bool :=
  match name.dropWhile Char.isDigit with
  | [] => false
  | c :: rest => isIdentStart c && rest.all isWordChar

/-- `Field` / `FieldBuf` (field.rs lines 20-25, 79-84).  The borrowed and owned Rust
forms have identical data and behavior and are collapsed to one type. -/
structure Field where
  name : Str
  requires_quoting : Bool
deriving DecidableEq, Repr

/-- `Field::from(&str)` / `FieldBuf::from(String)` (field.rs lines 50-67, 109-128).
When the text begins and ends with `"`, the code takes the slice `name[1..len-1]`;
for the one-character text `"` this is the reversed range `1..0` and the slice
indexing panics, modelled as `none`. -/
def fieldFrom (s : Str) : Option Field :=
  if s.head? = some dq ∧ s.getLast? = some dq then
    if 2 ≤ s.length then
      some ⟨(s.drop 1).dropLast, true⟩
    else
      none
  else if is_valid_field_name s then
    some ⟨s, false⟩
  else
    some ⟨s, true⟩

/-- `Segment` / `SegmentBuf` (segment.rs lines 9-13, 96-100), collapsed to one type. -/
inductive Segment where
  | field (f : Field)
  | index (i : Int)
  | coalesce (fs : List Field)
deriving Repr

instance : DecidableEq Segment := fun a b =>
  match a, b with
  | .field f, .field g =>
    if h : f = g then isTrue (by rw [h]) else isFalse (by simp [h])
  | .field _, .index _ => isFalse (by simp)
  | .field _, .coalesce _ => isFalse (by simp)
  | .index _, .field _ => isFalse (by simp)
  | .index i, .index j =>
    if h : i = j then isTrue (by rw [h]) else isFalse (by simp [h])
  | .index _, .coalesce _ => isFalse (by simp)
  | .coalesce _, .field _ => isFalse (by simp)
  | .coalesce _, .index _ => isFalse (by simp)
  | .coalesce fs, .coalesce gs =>
    if h : fs = gs then isTrue (by rw [h]) else isFalse (by simp [h])

/-- `Segment::is_field` (segment.rs lines 20-22). -/
def Segment.isFieldSeg : Segment → Bool
  | .field _ => true
  | _ => false

/-- `Segment::is_coalesce` (segment.rs lines 36-38). -/
def Segment.isCoalesceSeg : Segment → Bool
  | .coalesce _ => true
  | _ => false

/-- `ViewPath` / `ViewPathBuf` (view_path.rs lines 15-18, 233-236): the `VecDeque`
of segments, collapsed to a list whose head is the deque front. -/
abbrev ViewPath := List Segment

/-- `ViewPath::starts_with` / `ViewPathBuf::starts_with` (view_path.rs lines 84-86,
302-304): `needle.iter().zip(&self.segments).all(|(n, s)| n == s)`. -/
def starts_with (p needle : ViewPath) : Bool :=
  (needle.zip p).all fun ns => decide (ns.1 = ns.2)

/-- `serde_json::Value` (external document type, per the collaborator contract):
tagged union of null/bool/number/string/array/object, with objects as ordered
member lists.  Numbers are embedded abstractly as integers; no claim depends on
number formatting. -/
inductive Value where
  | null
  | bool (b : Bool)
  | num (n : Int)
  | str (s : Str)
  | array (items : List Value)
  | object (members : List (Str × Value))

instance : Inhabited Value := ⟨Value.null⟩

/-- `Value::is_array` shape test used to phrase the claims. -/
def Value.isArrayV : Value → Bool
  | .array _ => true
  | _ => false

/-- `Value::is_object` shape test used to phrase the claims. -/
def Value.isObjectV : Value → Bool
  | .object _ => true
  | _ => false

/-- `serde_json::Map::get`: member lookup by key (first member with that name). -/
def lookup (m : List (Str × Value)) (k : Str) : Option Value :=
  (m.find? fun e => e.1 == k).map fun e => e.2

/-- The `Segment::Coalesce` loop of `search_segment` (ejson/src/lib.rs lines 120-126):
return the first present member among the listed fields. -/
def coalesceLookup (m : List (Str × Value)) : List Field → Option Value
  | [] => none
  | f :: fs =>
    match lookup m f.name with
    | some v => some v
    | none => coalesceLookup m fs

/-- `search_segment` (ejson/src/lib.rs lines 101-131). -/
def search_segment (value : Value) (seg : Segment) : Option Value :=
  match seg with
  | .field f =>
    match value with
    | .object m => lookup m f.name
    | _ => none
  | .index i =>
    match value with
    | .array a =>
      if h : usizeCast i < a.length then some (a.get ⟨usizeCast i, h⟩) else none
    | _ => none
  | .coalesce c =>
    match value with
    | .object m => coalesceLookup m c
    | _ => none

/-- `search_path` (ejson/src/lib.rs lines 90-99): fold the segments over the
document, short-circuiting to `none` on the first failing segment. -/
def search_path (value : Value) (path : ViewPath) : Option Value :=
  match path with
  | [] => some value
  | seg :: rest => (search_segment value seg).bind fun v => search_path v rest

/-- One match list of `nest_find_by`: pairs of a path and the matched value. -/
abbrev Matches := List (ViewPath × Value)

/-- The trailing `if ret.len() > 0 { Some(ret) } else { None }` of the recursive
arms of `nest_find_by` (ejson/src/lib.rs lines 62-66, 81-85). -/
def collapseRet (ret : Matches) : Option Matches :=
  if ret.length > 0 then some ret else none

/-- The inner loop of the `Value::Object` arm (ejson/src/lib.rs lines 73-76):
for each collected match, run `FieldBuf::from` on the key (`k.as_str().into()`)
and prepend the resulting field segment; a panicking key (`fieldFrom k = none`)
aborts exactly when the match list is nonempty. -/
def pushKey (k : Str) : Matches → Option Matches
  | [] => some []
  | pv :: rest =>
    (fieldFrom k).bind fun f =>
      (pushKey k rest).map fun acc => (Segment.field f :: pv.1, pv.2) :: acc

mutual

/-- `nest_find_by` (ejson/src/lib.rs lines 35-88).  Result layers: the outer
`Option` models the panic of `FieldBuf::from` on a one-quote object key
reached while collecting matches; the inner one is the `Option<Vec<_>>` the
Rust function returns (`none` = no matches, never an empty list). -/
def nest_find_by (value : Value) (pred : Value → Bool) : Option (Option Matches) :=
  match value with
  | .null => some none
  | .bool b => some (if pred (.bool b) then some [([], .bool b)] else none)
  | .num n => some (if pred (.num n) then some [([], .num n)] else none)
  | .str s => some (if pred (.str s) then some [([], .str s)] else none)
  | .array a => (nfArr pred a 0).map collapseRet
  | .object m => (nfObj pred m).map collapseRet

/-- The `Value::Array` loop of `nest_find_by` (ejson/src/lib.rs lines 49-67):
iterate the elements with their indices (`i` is the enumeration offset of the
first element), and for every match of a subtree prepend `Index(i as isize)`
to the front of its path. -/
def nfArr (pred : Value → Bool) : List Value → Nat → Option Matches
  | [], _ => some []
  | v :: rest, i =>
    match nest_find_by v pred with
    | none => none
    | some none => nfArr pred rest (i + 1)
    | some (some paths) =>
      (nfArr pred rest (i + 1)).map fun acc =>
        (paths.map fun pv => (Segment.index (isizeOfNat i) :: pv.1, pv.2)) ++ acc

/-- The `Value::Object` loop of `nest_find_by` (ejson/src/lib.rs lines 68-86):
iterate the members, and for every match of a subtree prepend
`Field(k.as_str().into())` to the front of its path.  The `into()` runs
`FieldBuf::from` on the key once per collected match, so a panicking key
(`fieldFrom k = none`) aborts exactly when that subtree has matches. -/
def nfObj (pred : Value → Bool) : List (Str × Value) → Option Matches
  | [] => some []
  | (k, v) :: rest =>
    match nest_find_by v pred with
    | none => none
    | some none => nfObj pred rest
    | some (some paths) =>
      (pushKey k paths).bind fun paths2 =>
        (nfObj pred rest).map fun acc => paths2 ++ acc

end

/-- The decimal digit character for `d < 10`. -/
def digitChar (d : Nat) : Char := Char.ofNat (48 + d)

/-- Decimal digits of a natural number, with fuel to keep the division
recursion structural; any fuel above `n` computes it (see `natDigits`). -/
def natDigitsF : Nat → Nat → Str
  | 0, _ => []
  | f + 1, n =>
    if n < 10 then [digitChar n]
    else natDigitsF f (n / 10) ++ [digitChar (n % 10)]

/-- Decimal digits of a natural number, most significant first. -/
def natDigits (n : Nat) : Str := natDigitsF (n + 1) n

/-- `write!(f, "{}", i)` for an `isize`: canonical decimal form with a leading
minus sign for negative values. -/
def intStr (i : Int) : Str :=
  if i < 0 then '-' :: natDigits (-i).toNat else natDigits i.toNat

/-- `Display for Field` / `Display for FieldBuf` (field.rs lines 40-48, 99-107):
wrap the name in double quotes verbatim when `requires_quoting`. -/
def render_field (f : Field) : Str :=
  if f.requires_quoting then dq :: f.name ++ [dq] else f.name

/-- `.join(" | ")` over the rendered coalesce alternatives (segment.rs line 62). -/
def joinBar : List Str → Str
  | [] => []
  | [s] => s
  | s :: rest => s ++ ' ' :: '|' :: ' ' :: joinBar rest

/-- `Display for Segment` / `SegmentBuf` (segment.rs lines 51-66, 138-153):
an index is its bare integer text, a field is the field's own rendering, and a
coalesce is the alternatives joined by `" | "` inside parentheses. -/
def render_segment : Segment → Str
  | .index i => intStr i
  | .field f => render_field f
  | .coalesce fs => '(' :: joinBar (fs.map render_field) ++ [')']

/-- One segment as the `Display for ViewPath` loop writes it: an `Index` is
additionally wrapped in its own `[ ]` brackets (view_path.rs lines 31-32). -/
def wrapSeg (s : Segment) : Str :=
  match s with
  | .index _ => '[' :: render_segment s ++ [']']
  | _ => render_segment s

/-- The peek test of the `Display for ViewPath` loop (view_path.rs lines 24-27):
whether the next segment is a `Field` or a `Coalesce`. -/
def nextNeedsDot (s : Segment) : Bool := s.isFieldSeg || s.isCoalesceSeg

/-- `Display for ViewPath` / `ViewPathBuf` (view_path.rs lines 20-39, 238-257):
walk the segments with a one-segment peek; after each segment's rendering emit
`"."` exactly when the peeked next segment is a `Field` or a `Coalesce`. -/
def display : ViewPath → Str
  | [] => []
  | [s] => wrapSeg s
  | s :: s2 :: rest =>
    wrapSeg s ++ (if nextNeedsDot s2 then ['.'] else []) ++ display (s2 :: rest)

/-!
## The path parser

The grammar file `path.lalrpop` that `parser.rs` compiles is not part of the
sources; the parser below is modelled from the spec.
-/

/-- Whitespace skipping between tokens (the generated lexer skips it). -/
def skipSp (s : Str) : Str := s.dropWhile fun c => c == ' '

/-- Whether the input starts with the given character. -/
def headIs (c : Char) : Str → Bool
  | d :: _ => d == c
  | [] => false

/-- The closing-quote check of a quoted field token: after the scanned
content, the input must resume with a double quote. -/
def quotedEnd (content : Str) : Str → Option (Field × Str)
  | c2 :: rest2 => if c2 == dq then some (⟨content, true⟩, rest2) else none
  | [] => none

/-- Modelled from the spec: one field token of the path grammar, `field :=
bare-ident | quoted-string` (§6), where `bare-ident := [0-9]* [A-Za-z_]
[0-9A-Za-z_]*` and a quoted string is any run of non-quote characters between
two double quotes (the spec performs no escape interpretation, §4.1).  Returns
the `Field` (quotes stripped and marked `requires_quoting`) and the rest of
the input. -/
def parseFieldTok : Str → Option (Field × Str)
  | [] => none
  | c :: rest =>
    if c == dq then
      quotedEnd (rest.takeWhile fun x => !(x == dq)) (rest.dropWhile fun x => !(x == dq))
    else if is_valid_field_name ((c :: rest).takeWhile isWordChar) then
      some (⟨(c :: rest).takeWhile isWordChar, false⟩, (c :: rest).dropWhile isWordChar)
    else none

/-- Modelled from the spec: the body of a coalesce step after its opening
parenthesis, `coalesce := "(" field ( "|" field )* ")"` (§6).  Fuel bounds the
number of alternatives; any fuel at least their number suffices. -/
def parseCoalesceFields : Nat → Str → Option (List Field × Str)
  | 0, _ => none
  | fuel + 1, s =>
    (parseFieldTok (skipSp s)).bind fun fr =>
      if headIs '|' (skipSp fr.2) then
        (parseCoalesceFields fuel ((skipSp fr.2).drop 1)).map fun p => (fr.1 :: p.1, p.2)
      else if headIs ')' (skipSp fr.2) then some ([fr.1], (skipSp fr.2).drop 1)
      else none

/-- Value of a digit string, most significant first. -/
def digitsVal (ds : Str) : Nat := ds.foldl (fun a c => a * 10 + (c.toNat - 48)) 0

/-- A nonempty run of decimal digits and its value. -/
def parseNatTok (s : Str) : Option (Nat × Str) :=
  if (s.takeWhile Char.isDigit).isEmpty then none
  else some (digitsVal (s.takeWhile Char.isDigit), s.dropWhile Char.isDigit)

/-- Modelled from the spec: a decimal integer with an optional leading minus
sign (the `signed-int` token, §6). -/
def parseInt (s : Str) : Option (Int × Str) :=
  match s with
  | [] => none
  | c :: rest =>
    if c == '-' then (parseNatTok rest).map fun p => (-(p.1 : Int), p.2)
    else (parseNatTok (c :: rest)).map fun p => ((p.1 : Int), p.2)

/-- The closing-bracket check of an index step. -/
def idxClose (i : Int) : Str → Option (Int × Str)
  | c :: rest2 => if c == ']' then some (i, rest2) else none
  | [] => none

/-- Modelled from the spec: the body of an index step after its opening
bracket, `index-step := "[" signed-int "]"` (§6); an integer outside the
`isize` range is a parse error (§4.4, "invalid integer"). -/
def parseIndexSeg (s : Str) : Option (Int × Str) :=
  (parseInt (skipSp s)).bind fun p =>
    if -two63 ≤ p.1 ∧ p.1 < two63 then idxClose p.1 (skipSp p.2) else none

/-- Modelled from the spec: `path := step*`, where a step is an index step, or
a field/coalesce step preceded by an optional `"."` (§6: both `a.b[0]` and
`a[0]` are valid, and a path may start with any step).  Fuel bounds the number
of steps; any fuel above their number suffices. -/
def dotSkip (r : Str) : Str := if headIs '.' r then skipSp (r.drop 1) else r

def parseSteps : Nat → Str → Option ViewPath
  | 0, _ => none
  | fuel + 1, s =>
    if (skipSp s).isEmpty then some []
    else if headIs '[' (skipSp s) then
      (parseIndexSeg ((skipSp s).drop 1)).bind fun ir =>
        (parseSteps fuel ir.2).map fun segs => Segment.index ir.1 :: segs
    else if headIs '(' (dotSkip (skipSp s)) then
      (parseCoalesceFields (((dotSkip (skipSp s)).drop 1).length + 1)
          ((dotSkip (skipSp s)).drop 1)).bind fun fr =>
        (parseSteps fuel fr.2).map fun segs => Segment.coalesce fr.1 :: segs
    else
      (parseFieldTok (dotSkip (skipSp s))).bind fun fr =>
        (parseSteps fuel fr.2).map fun segs => Segment.field fr.1 :: segs

/-- Modelled from the spec: `parse_view_path` (parser.rs lines 12-16; the
lalrpop grammar itself is not under the sources).  `none` models a parse
error. -/
def parse_view_path (s : Str) : Option ViewPath := parseSteps (s.length + 1) s

/-!
## The image of the parser

`fieldOk`/`segOk`/`pathOk` describe the fields, segments and paths the parser
can produce; every parsed path satisfies them (`parseSteps_ok`) and every path
satisfying them is re-parsed from its own rendering (`parseSteps_display`).
-/

/-- Fields the parser produces: a quoted field's name holds no quote
character, and an unquoted field's name is a valid bare identifier. -/
def fieldOk (f : Field) : Bool :=
  if f.requires_quoting then f.name.all fun c => !(c == dq)
  else is_valid_field_name f.name

/-- Segments the parser produces. -/
def segOk : Segment → Bool
  | .field f => fieldOk f
  | .index i => decide (-two63 ≤ i ∧ i < two63)
  | .coalesce fs => !fs.isEmpty && fs.all fieldOk

/-- Paths the parser produces. -/
def pathOk (p : ViewPath) : Bool := p.all segOk

theorem all_takeWhile_self (p : Char → Bool) (l : Str) :
    (l.takeWhile p).all p = true := by
  induction l with
  | nil => rfl
  | cons x xs ih =>
    by_cases h : p x = true <;> simp [List.takeWhile_cons, h, ih]

theorem takeWhile_all (p : Char → Bool) (xs : Str) (hxs : xs.all p = true) :
    xs.takeWhile p = xs := by
  induction xs with
  | nil => rfl
  | cons x xt ih =>
    simp only [List.all_cons, Bool.and_eq_true] at hxs
    simp [List.takeWhile_cons, hxs.1, ih hxs.2]

theorem dropWhile_all (p : Char → Bool) (xs : Str) (hxs : xs.all p = true) :
    xs.dropWhile p = [] := by
  induction xs with
  | nil => rfl
  | cons x xt ih =>
    simp only [List.all_cons, Bool.and_eq_true] at hxs
    simp [List.dropWhile_cons, hxs.1, ih hxs.2]

theorem takeWhile_app (p : Char → Bool) (xs ys : Str) (y : Char)
    (hxs : xs.all p = true) (hy : p y = false) :
    (xs ++ y :: ys).takeWhile p = xs := by
  induction xs with
  | nil => simp [List.takeWhile_cons, hy]
  | cons x xt ih =>
    simp only [List.all_cons, Bool.and_eq_true] at hxs
    simp [List.takeWhile_cons, hxs.1, ih hxs.2]

theorem dropWhile_app (p : Char → Bool) (xs ys : Str) (y : Char)
    (hxs : xs.all p = true) (hy : p y = false) :
    (xs ++ y :: ys).dropWhile p = y :: ys := by
  induction xs with
  | nil => simp [List.dropWhile_cons, hy]
  | cons x xt ih =>
    simp only [List.all_cons, Bool.and_eq_true] at hxs
    simp [List.dropWhile_cons, hxs.1, ih hxs.2]

/-- A helper covering both suffix shapes at once: take/drop a word prefix in
front of a suffix whose head (if any) fails the predicate. -/
theorem takeWhile_app_head (p : Char → Bool) (xs suffix : Str)
    (hxs : xs.all p = true)
    (hs : ∀ c, suffix.head? = some c → p c = false) :
    (xs ++ suffix).takeWhile p = xs ∧ (xs ++ suffix).dropWhile p = suffix := by
  cases suffix with
  | nil =>
    simp only [List.append_nil]
    exact ⟨takeWhile_all p xs hxs, dropWhile_all p xs hxs⟩
  | cons y ys =>
    have hy := hs y rfl
    exact ⟨takeWhile_app p xs ys y hxs hy, dropWhile_app p xs ys y hxs hy⟩

theorem word_ne (c d : Char) (hw : isWordChar c = true) (hd : isWordChar d = false) :
    (c == d) = false := by
  cases hcd : c == d
  · rfl
  · rw [beq_iff_eq] at hcd
    rw [hcd, hd] at hw
    cases hw

theorem digit_word (c : Char) (h : c.isDigit = true) : isWordChar c = true := by
  simp [isWordChar, Char.isAlphanum, h]

theorem identStart_word (c : Char) (h : isIdentStart c = true) : isWordChar c = true := by
  rcases Bool.or_eq_true_iff.mp h with h1 | h1 <;>
    simp [isWordChar, Char.isAlphanum, h1]

/-- A valid bare identifier is nonempty and consists of word characters. -/
theorem valid_shape (s : Str) (h : is_valid_field_name s = true) :
    s ≠ [] ∧ s.all isWordChar = true := by
  unfold is_valid_field_name at h
  cases hd : s.dropWhile Char.isDigit with
  | nil => rw [hd] at h; cases h
  | cons c rest =>
    rw [hd] at h
    simp only [Bool.and_eq_true] at h
    have hsplit : s.takeWhile Char.isDigit ++ c :: rest = s := by
      rw [← hd]; exact List.takeWhile_append_dropWhile Char.isDigit s
    constructor
    · intro hs
      rw [hs] at hsplit
      cases List.append_eq_nil.mp hsplit |>.2
    · rw [← hsplit]
      simp only [List.all_append, List.all_cons, Bool.and_eq_true]
      refine ⟨?_, identStart_word c h.1, h.2⟩
      have := all_takeWhile_self Char.isDigit s
      revert this
      generalize s.takeWhile Char.isDigit = ts
      intro hts
      induction ts with
      | nil => rfl
      | cons t tt ih =>
        simp only [List.all_cons, Bool.and_eq_true] at hts ⊢
        exact ⟨digit_word t hts.1, ih hts.2⟩

/-!
## Decimal digits round-trip
-/

theorem digitChar_isDigit (d : Nat) (h : d < 10) : (digitChar d).isDigit = true := by
  interval_cases d <;> decide

theorem digitChar_val (d : Nat) (h : d < 10) : (digitChar d).toNat - 48 = d := by
  interval_cases d <;> decide

theorem natDigitsF_all (f n : Nat) (h : n < f) :
    (natDigitsF f n).all Char.isDigit = true := by
  induction f generalizing n with
  | zero => omega
  | succ f ih =>
    unfold natDigitsF
    split_ifs with h10
    · simp [digitChar_isDigit n h10]
    · simp only [List.all_append, List.all_cons, List.all_nil, Bool.and_eq_true]
      refine ⟨ih (n / 10) (by omega), digitChar_isDigit (n % 10) (by omega), trivial⟩

theorem natDigitsF_ne_nil (f n : Nat) (h : n < f) : natDigitsF f n ≠ [] := by
  cases f with
  | zero => omega
  | succ f =>
    unfold natDigitsF
    split_ifs with h10
    · simp
    · simp

theorem digitsVal_append_digit (ds : Str) (c : Char) :
    digitsVal (ds ++ [c]) = digitsVal ds * 10 + (c.toNat - 48) := by
  unfold digitsVal
  rw [List.foldl_append]
  rfl

theorem natDigitsF_val (f n : Nat) (h : n < f) :
    digitsVal (natDigitsF f n) = n := by
  induction f generalizing n with
  | zero => omega
  | succ f ih =>
    unfold natDigitsF
    split_ifs with h10
    · show 0 * 10 + ((digitChar n).toNat - 48) = n
      rw [digitChar_val n h10]
      omega
    · rw [digitsVal_append_digit, ih (n / 10) (by omega), digitChar_val (n % 10) (by omega)]
      omega

theorem natDigits_all (n : Nat) : (natDigits n).all Char.isDigit = true :=
  natDigitsF_all (n + 1) n (by omega)

theorem natDigits_ne_nil (n : Nat) : natDigits n ≠ [] :=
  natDigitsF_ne_nil (n + 1) n (by omega)

theorem natDigits_val (n : Nat) : digitsVal (natDigits n) = n :=
  natDigitsF_val (n + 1) n (by omega)

theorem natDigits_cons (n : Nat) :
    ∃ c r, natDigits n = c :: r ∧ c.isDigit = true := by
  cases hnd : natDigits n with
  | nil => exact absurd hnd (natDigits_ne_nil n)
  | cons c r =>
    refine ⟨c, r, rfl, ?_⟩
    have := natDigits_all n
    rw [hnd] at this
    simp only [List.all_cons, Bool.and_eq_true] at this
    exact this.1

theorem digit_ne (c d : Char) (hc : c.isDigit = true) (hd : d.isDigit = false) :
    (c == d) = false := by
  cases hcd : c == d
  · rfl
  · rw [beq_iff_eq] at hcd
    rw [hcd, hd] at hc
    cases hc

/-!
## Re-parsing the canonical rendering: token level
-/

theorem skipSp_cons (c : Char) (s : Str) (h : (c == ' ') = false) :
    skipSp (c :: s) = c :: s := by
  simp [skipSp, List.dropWhile_cons, h]

theorem skipSp_space (s : Str) : skipSp (' ' :: s) = skipSp s := by
  simp [skipSp, List.dropWhile_cons]

theorem parseNatTok_digits (n : Nat) (suffix : Str)
    (hs : ∀ c, suffix.head? = some c → c.isDigit = false) :
    parseNatTok (natDigits n ++ suffix) = some (n, suffix) := by
  unfold parseNatTok
  obtain ⟨htake, hdrop⟩ :=
    takeWhile_app_head Char.isDigit (natDigits n) suffix (natDigits_all n) hs
  rw [htake, hdrop]
  rw [if_neg (by simp [List.isEmpty_iff, natDigits_ne_nil n])]
  rw [natDigits_val n]

theorem parseInt_intStr (i : Int) (suffix : Str)
    (hs : ∀ c, suffix.head? = some c → c.isDigit = false) :
    parseInt (intStr i ++ suffix) = some (i, suffix) := by
  unfold intStr
  split_ifs with hneg
  · show parseInt ('-' :: (natDigits (-i).toNat ++ suffix)) = some (i, suffix)
    rw [parseInt]
    rw [if_pos (show ('-' == '-') = true from rfl)]
    rw [parseNatTok_digits (-i).toNat suffix hs]
    show some (-(((-i).toNat : Nat) : Int), suffix) = some (i, suffix)
    have hi : -(((-i).toNat : Nat) : Int) = i := by omega
    rw [hi]
  · obtain ⟨c, r, hnd, hcd⟩ := natDigits_cons i.toNat
    rw [hnd]
    show parseInt (c :: (r ++ suffix)) = some (i, suffix)
    rw [parseInt]
    rw [if_neg (by rw [digit_ne c '-' hcd (by decide)]; simp)]
    have hpn : parseNatTok (c :: (r ++ suffix)) = some (i.toNat, suffix) := by
      show parseNatTok ((c :: r) ++ suffix) = some (i.toNat, suffix)
      rw [← hnd]
      exact parseNatTok_digits i.toNat suffix hs
    rw [hpn]
    show some (((i.toNat : Nat) : Int), suffix) = some (i, suffix)
    have hi : ((i.toNat : Nat) : Int) = i := by omega
    rw [hi]

theorem skipSp_intStr (i : Int) (X : Str) : skipSp (intStr i ++ X) = intStr i ++ X := by
  unfold intStr
  split_ifs with hneg
  · exact skipSp_cons '-' _ (by decide)
  · obtain ⟨c, r, hnd, hcd⟩ := natDigits_cons i.toNat
    rw [hnd]
    exact skipSp_cons c _ (digit_ne c ' ' hcd (by decide))

theorem parseIndexSeg_repar (i : Int) (suffix : Str)
    (hr : -two63 ≤ i ∧ i < two63) :
    parseIndexSeg (intStr i ++ ']' :: suffix) = some (i, suffix) := by
  unfold parseIndexSeg
  rw [skipSp_intStr]
  rw [parseInt_intStr i (']' :: suffix) (by intro c hc; cases hc; decide)]
  show (if -two63 ≤ i ∧ i < two63 then idxClose i (skipSp (']' :: suffix)) else none) =
    some (i, suffix)
  rw [if_pos hr]
  rw [skipSp_cons ']' suffix (by decide)]
  rfl

/-!
## Re-parsing the canonical rendering: field and coalesce level
-/

theorem parseFieldTok_quoted (name suffix : Str)
    (hq : name.all (fun c => !(c == dq)) = true) :
    parseFieldTok (dq :: name ++ dq :: suffix) = some (⟨name, true⟩, suffix) := by
  obtain ⟨htake, hdrop⟩ :=
    takeWhile_app_head (fun x => !(x == dq)) name (dq :: suffix) hq
      (by intro c hc; cases hc; simp)
  show parseFieldTok (dq :: (name ++ dq :: suffix)) = _
  rw [parseFieldTok]
  rw [if_pos (show (dq == dq) = true from rfl)]
  rw [htake, hdrop]
  rfl

theorem parseFieldTok_bare (name suffix : Str)
    (hv : is_valid_field_name name = true)
    (hs : ∀ c, suffix.head? = some c → isWordChar c = false) :
    parseFieldTok (name ++ suffix) = some (⟨name, false⟩, suffix) := by
  obtain ⟨hne, hall⟩ := valid_shape name hv
  obtain ⟨c, rest, rfl⟩ : ∃ c rest, name = c :: rest := by
    cases name with
    | nil => exact absurd rfl hne
    | cons c rest => exact ⟨c, rest, rfl⟩
  · simp only [List.all_cons, Bool.and_eq_true] at hall
    show parseFieldTok (c :: (rest ++ suffix)) = _
    rw [parseFieldTok]
    rw [if_neg (by rw [word_ne c dq hall.1 (by decide)]; simp)]
    have hall2 : (c :: rest).all isWordChar = true := by
      simp only [List.all_cons, Bool.and_eq_true]
      exact hall
    obtain ⟨htake0, hdrop0⟩ := takeWhile_app_head isWordChar (c :: rest) suffix hall2 hs
    have htake : List.takeWhile isWordChar (c :: (rest ++ suffix)) = c :: rest := htake0
    have hdrop : List.dropWhile isWordChar (c :: (rest ++ suffix)) = suffix := hdrop0
    rw [htake, hdrop]
    rw [if_pos hv]

/-- The head character of a parser-producible field rendering is never a
space, dot, bracket, parenthesis, bar or digit-run terminator the step parser
branches on. -/
theorem render_field_shape (f : Field) (hok : fieldOk f = true) :
    ∃ c r, render_field f = c :: r ∧ (c == ' ') = false ∧ (c == '.') = false
      ∧ (c == '[') = false ∧ (c == '(') = false := by
  obtain ⟨name, rq⟩ := f
  cases rq with
  | true =>
    refine ⟨dq, name ++ [dq], rfl, by decide, by decide, by decide, by decide⟩
  | false =>
    unfold fieldOk at hok
    simp only [if_neg (by simp : ¬ (Field.mk name false).requires_quoting = true)] at hok
    obtain ⟨hne, hall⟩ := valid_shape name hok
    cases hn : name with
    | nil => exact absurd hn hne
    | cons c rest =>
      rw [hn] at hall
      simp only [List.all_cons, Bool.and_eq_true] at hall
      refine ⟨c, rest, rfl, ?_, ?_, ?_, ?_⟩ <;>
        exact word_ne c _ hall.1 (by decide)

theorem parseFieldTok_render (f : Field) (suffix : Str) (hok : fieldOk f = true)
    (hs : ∀ c, suffix.head? = some c → isWordChar c = false) :
    parseFieldTok (render_field f ++ suffix) = some (f, suffix) := by
  obtain ⟨name, rq⟩ := f
  cases rq with
  | true =>
    show parseFieldTok ((dq :: name ++ [dq]) ++ suffix) = _
    rw [show (dq :: name ++ [dq]) ++ suffix = dq :: name ++ dq :: suffix by simp]
    exact parseFieldTok_quoted name suffix (by simpa [fieldOk] using hok)
  | false =>
    show parseFieldTok (name ++ suffix) = _
    exact parseFieldTok_bare name suffix (by simpa [fieldOk] using hok) hs

theorem skipSp_render (f : Field) (X : Str) (hok : fieldOk f = true) :
    skipSp (render_field f ++ X) = render_field f ++ X := by
  obtain ⟨c, r, hcr, hsp, _, _, _⟩ := render_field_shape f hok
  rw [hcr]
  exact skipSp_cons c _ hsp

theorem parseCoalesce_sp (fuel : Nat) (s : Str) :
    parseCoalesceFields (fuel + 1) (' ' :: s) = parseCoalesceFields (fuel + 1) s := by
  rw [parseCoalesceFields, parseCoalesceFields, skipSp_space]

theorem joinBar_len (fs : List Field) :
    fs.length ≤ (joinBar (fs.map render_field)).length + 1 := by
  induction fs with
  | nil => simp [joinBar]
  | cons f rest ih =>
    cases rest with
    | nil => simp [joinBar]
    | cons f2 r2 =>
      have hJ : joinBar (List.map render_field (f :: f2 :: r2)) =
          render_field f ++ ' ' :: '|' :: ' ' :: joinBar (List.map render_field (f2 :: r2)) := by
        rw [List.map_cons, List.map_cons, joinBar]
        simp
      rw [hJ]
      simp only [List.length_cons, List.length_append] at *
      omega

theorem parseCoalesce_repar : ∀ (fs : List Field) (fuel : Nat) (suffix : Str),
    fs ≠ [] → fs.all fieldOk = true → fs.length ≤ fuel →
    parseCoalesceFields fuel (joinBar (fs.map render_field) ++ ')' :: suffix) =
      some (fs, suffix) := by
  intro fs
  induction fs with
  | nil => intro fuel suffix hne; exact absurd rfl hne
  | cons f rest ih =>
    intro fuel suffix hne hall hlen
    have hokf : fieldOk f = true := by
      simp only [List.all_cons, Bool.and_eq_true] at hall
      exact hall.1
    obtain ⟨fu, rfl⟩ : ∃ fu, fuel = fu + 1 := by
      cases fuel with
      | zero => simp at hlen
      | succ fu => exact ⟨fu, rfl⟩
    cases rest with
    | nil =>
      rw [List.map_cons, List.map_nil, joinBar]
      rw [parseCoalesceFields]
      rw [skipSp_render f (')' :: suffix) hokf]
      rw [parseFieldTok_render f (')' :: suffix) hokf (by intro c hc; cases hc; decide)]
      rfl
    | cons f2 r2 =>
      have hJ : joinBar (List.map render_field (f :: f2 :: r2)) =
          render_field f ++ ' ' :: '|' :: ' ' :: joinBar (List.map render_field (f2 :: r2)) := by
        rw [List.map_cons, List.map_cons, joinBar]
        simp
      rw [hJ]
      have hassoc :
          (render_field f ++ ' ' :: '|' :: ' ' :: joinBar (List.map render_field (f2 :: r2)))
              ++ ')' :: suffix
            = render_field f ++ (' ' :: '|' :: ' ' ::
                (joinBar (List.map render_field (f2 :: r2)) ++ ')' :: suffix)) := by
        simp [List.append_assoc]
      rw [hassoc]
      rw [parseCoalesceFields]
      rw [skipSp_render f _ hokf]
      rw [parseFieldTok_render f _ hokf (by intro c hc; cases hc; decide)]
      rw [Option.some_bind]
      show (if headIs '|'
            (skipSp (' ' :: '|' :: ' ' ::
              (joinBar ((f2 :: r2).map render_field) ++ ')' :: suffix))) then _ else _)
          = _
      rw [skipSp_space, skipSp_cons '|' _ (by decide)]
      rw [if_pos (by rw [headIs]; rfl)]
      obtain ⟨fu2, rfl⟩ : ∃ fu2, fu = fu2 + 1 := by
        cases fu with
        | zero => simp at hlen
        | succ fu2 => exact ⟨fu2, rfl⟩
      show (parseCoalesceFields (fu2 + 1)
          (' ' :: (joinBar ((f2 :: r2).map render_field) ++ ')' :: suffix))).map _ = _
      rw [parseCoalesce_sp]
      rw [ih (fu2 + 1) suffix (by simp) (by
          simp only [List.all_cons, Bool.and_eq_true] at hall
          simpa using hall.2)
        (by simp only [List.length_cons] at hlen ⊢; omega)]
      rfl

/-!
## The rendering of a path, reorganized for re-parsing
-/

/-- The rendering of a path in tail position: every field or coalesce segment
is preceded by `"."`, an index is not. -/
def displayTail : ViewPath → Str
  | [] => []
  | s :: rest => (if nextNeedsDot s then ['.'] else []) ++ wrapSeg s ++ displayTail rest

/-- The rendering of a whole path: the first segment has no preceding dot. -/
def headRender : ViewPath → Str
  | [] => []
  | s :: rest => wrapSeg s ++ displayTail rest

theorem display_eq_headRender (p : ViewPath) : display p = headRender p := by
  induction p with
  | nil => rfl
  | cons s rest ih =>
    cases rest with
    | nil => simp [display, headRender, displayTail]
    | cons s2 r2 =>
      rw [display, ih]
      simp [headRender, displayTail, List.append_assoc]

theorem displayTail_head_nonword (rest : ViewPath) :
    ∀ c, (displayTail rest).head? = some c → isWordChar c = false := by
  cases rest with
  | nil => intro c hc; cases hc
  | cons s r2 =>
    intro c hc
    cases s with
    | field f =>
      rw [displayTail] at hc
      simp only [nextNeedsDot, Segment.isFieldSeg, Bool.true_or, if_true] at hc
      cases hc
      decide
    | coalesce fs =>
      rw [displayTail] at hc
      simp only [nextNeedsDot, Segment.isFieldSeg, Segment.isCoalesceSeg,
        Bool.or_true, if_true] at hc
      cases hc
      decide
    | index i =>
      rw [displayTail] at hc
      simp only [nextNeedsDot, Segment.isFieldSeg, Segment.isCoalesceSeg,
        Bool.or_self, if_false] at hc
      rw [wrapSeg] at hc
      cases hc
      decide

theorem wrapSeg_len (s : Segment) (hok : segOk s = true) : 1 ≤ (wrapSeg s).length := by
  cases s with
  | index i => simp [wrapSeg]
  | coalesce fs => simp [wrapSeg, render_segment]
  | field f =>
    show 1 ≤ (render_field f).length
    unfold render_field
    split_ifs with hq
    · simp
    · have hv : is_valid_field_name f.name = true := by
        have hok2 : fieldOk f = true := hok
        unfold fieldOk at hok2
        rw [if_neg hq] at hok2
        exact hok2
      obtain ⟨hne, -⟩ := valid_shape f.name hv
      cases hm : f.name with
      | nil => exact absurd hm hne
      | cons c r => simp

theorem displayTail_len (p : ViewPath) (hok : pathOk p = true) :
    p.length ≤ (displayTail p).length := by
  induction p with
  | nil => simp [displayTail]
  | cons s rest ih =>
    have hsp : segOk s = true ∧ pathOk rest = true := by
      simp only [pathOk, List.all_cons, Bool.and_eq_true] at hok
      exact hok
    have h1 := wrapSeg_len s hsp.1
    have h2 := ih hsp.2
    rw [displayTail]
    simp only [List.length_append, List.length_cons]
    omega

theorem headRender_len (p : ViewPath) (hok : pathOk p = true) :
    p.length ≤ (headRender p).length := by
  cases p with
  | nil => simp [headRender]
  | cons s rest =>
    have hsp : segOk s = true ∧ pathOk rest = true := by
      simp only [pathOk, List.all_cons, Bool.and_eq_true] at hok
      exact hok
    have h1 := wrapSeg_len s hsp.1
    have h2 := displayTail_len rest hsp.2
    rw [headRender]
    simp only [List.length_append, List.length_cons]
    omega

/-- Re-parsing a parser-producible path from its rendering, in both tail
position (with the leading separator of a field or coalesce) and head
position (without it). -/
theorem parseSteps_displayTail : ∀ (segs : ViewPath) (fuel : Nat),
    pathOk segs = true → segs.length + 1 ≤ fuel →
    parseSteps fuel (displayTail segs) = some segs ∧
    parseSteps fuel (headRender segs) = some segs := by
  intro segs
  induction segs with
  | nil =>
    intro fuel hok hfu
    obtain ⟨fu, rfl⟩ : ∃ fu, fuel = fu + 1 := ⟨fuel - 1, by omega⟩
    exact ⟨by rw [displayTail, parseSteps]; rfl, by rw [headRender, parseSteps]; rfl⟩
  | cons s rest ih =>
    intro fuel hok hfu
    obtain ⟨fu, rfl⟩ : ∃ fu, fuel = fu + 1 := ⟨fuel - 1, by omega⟩
    have hsp : segOk s = true ∧ pathOk rest = true := by
      simp only [pathOk, List.all_cons, Bool.and_eq_true] at hok
      exact hok
    have hrec := (ih fu hsp.2 (by simp only [List.length_cons] at hfu; omega)).1
    cases s with
    | index i =>
      have hrange : -two63 ≤ i ∧ i < two63 := by
        have := hsp.1
        unfold segOk at this
        exact of_decide_eq_true this
      have hshape : displayTail (Segment.index i :: rest) =
          '[' :: (intStr i ++ ']' :: displayTail rest) := by
        simp [displayTail, nextNeedsDot, Segment.isFieldSeg, Segment.isCoalesceSeg,
          wrapSeg, render_segment]
      have hshape2 : headRender (Segment.index i :: rest) =
          '[' :: (intStr i ++ ']' :: displayTail rest) := by
        simp [headRender, wrapSeg, render_segment]
      have main : parseSteps (fu + 1) ('[' :: (intStr i ++ ']' :: displayTail rest)) =
          some (Segment.index i :: rest) := by
        rw [parseSteps]
        rw [skipSp_cons '[' _ (by decide)]
        rw [if_neg (by simp)]
        rw [if_pos (show headIs '[' ('[' :: (intStr i ++ ']' :: displayTail rest)) = true
          from rfl)]
        show (parseIndexSeg (intStr i ++ ']' :: displayTail rest)).bind _ = _
        rw [parseIndexSeg_repar i (displayTail rest) hrange]
        rw [Option.some_bind]
        show (parseSteps fu (displayTail rest)).map _ = _
        rw [hrec]
        rfl
      exact ⟨by rw [hshape]; exact main, by rw [hshape2]; exact main⟩
    | field f =>
      have hokf : fieldOk f = true := hsp.1
      have hsw : skipSp (render_field f ++ displayTail rest) =
          render_field f ++ displayTail rest := skipSp_render f _ hokf
      obtain ⟨c, r, hcr, hnsp, hndot, hnbr, hnpar⟩ := render_field_shape f hokf
      have hW : render_field f ++ displayTail rest = c :: (r ++ displayTail rest) := by
        rw [hcr]
        rfl
      have hie : (render_field f ++ displayTail rest).isEmpty = false := by
        rw [hW]
        rfl
      have hbr : headIs '[' (render_field f ++ displayTail rest) = false := by
        rw [hW, headIs]
        exact hnbr
      have hdot : headIs '.' (render_field f ++ displayTail rest) = false := by
        rw [hW, headIs]
        exact hndot
      have hpar : headIs '(' (render_field f ++ displayTail rest) = false := by
        rw [hW, headIs]
        exact hnpar
      have hds : dotSkip (render_field f ++ displayTail rest) =
          render_field f ++ displayTail rest := by
        unfold dotSkip
        rw [hdot]
        rfl
      have hft : parseFieldTok (render_field f ++ displayTail rest) =
          some (f, displayTail rest) :=
        parseFieldTok_render f _ hokf (displayTail_head_nonword rest)
      have main : parseSteps (fu + 1) (render_field f ++ displayTail rest) =
          some (Segment.field f :: rest) := by
        rw [parseSteps, hsw]
        rw [if_neg (by rw [hie]; simp)]
        rw [if_neg (by rw [hbr]; simp)]
        rw [hds]
        rw [if_neg (by rw [hpar]; simp)]
        rw [hft, Option.some_bind]
        show (parseSteps fu (displayTail rest)).map _ = _
        rw [hrec]
        rfl
      constructor
      · have hshape : displayTail (Segment.field f :: rest) =
            '.' :: (render_field f ++ displayTail rest) := by
          simp [displayTail, nextNeedsDot, Segment.isFieldSeg, wrapSeg, render_segment]
        rw [hshape]
        rw [parseSteps]
        rw [skipSp_cons '.' _ (by decide)]
        rw [if_neg (by simp)]
        rw [if_neg (by rw [show headIs '[' ('.' :: (render_field f ++ displayTail rest)) =
          false from rfl]; simp)]
        have hds2 : dotSkip ('.' :: (render_field f ++ displayTail rest)) =
            render_field f ++ displayTail rest := by
          show skipSp (render_field f ++ displayTail rest) = _
          exact hsw
        rw [hds2]
        rw [if_neg (by rw [hpar]; simp)]
        rw [hft, Option.some_bind]
        show (parseSteps fu (displayTail rest)).map _ = _
        rw [hrec]
        rfl
      · have hshape : headRender (Segment.field f :: rest) =
            render_field f ++ displayTail rest := by
          simp [headRender, wrapSeg, render_segment]
        rw [hshape]
        exact main
    | coalesce fs =>
      have hokc : (!fs.isEmpty && fs.all fieldOk) = true := hsp.1
      have hne : fs ≠ [] := by
        simp only [Bool.and_eq_true, Bool.not_eq_true'] at hokc
        simpa [List.isEmpty_iff] using hokc.1
      have hallf : fs.all fieldOk = true := by
        simp only [Bool.and_eq_true] at hokc
        exact hokc.2
      have hco : parseCoalesceFields
          ((joinBar (List.map render_field fs) ++ ')' :: displayTail rest).length + 1)
          (joinBar (List.map render_field fs) ++ ')' :: displayTail rest) =
          some (fs, displayTail rest) := by
        apply parseCoalesce_repar fs _ _ hne hallf
        have := joinBar_len fs
        simp only [List.length_append, List.length_cons]
        omega
      have main : parseSteps (fu + 1)
          ('(' :: (joinBar (List.map render_field fs) ++ ')' :: displayTail rest)) =
          some (Segment.coalesce fs :: rest) := by
        have hnb : headIs '['
            ('(' :: (joinBar (List.map render_field fs) ++ ')' :: displayTail rest)) = false := rfl
        have hnp : headIs '('
            ('(' :: (joinBar (List.map render_field fs) ++ ')' :: displayTail rest)) = true := rfl
        rw [parseSteps]
        rw [skipSp_cons '(' _ (by decide)]
        rw [if_neg (by simp)]
        rw [if_neg (by rw [hnb]; simp)]
        have hds : dotSkip
            ('(' :: (joinBar (List.map render_field fs) ++ ')' :: displayTail rest)) =
            '(' :: (joinBar (List.map render_field fs) ++ ')' :: displayTail rest) := rfl
        rw [hds]
        rw [if_pos hnp]
        show (parseCoalesceFields
            ((joinBar (List.map render_field fs) ++ ')' :: displayTail rest).length + 1)
            (joinBar (List.map render_field fs) ++ ')' :: displayTail rest)).bind _ = _
        rw [hco, Option.some_bind]
        show (parseSteps fu (displayTail rest)).map _ = _
        rw [hrec]
        rfl
      constructor
      · have hshape : displayTail (Segment.coalesce fs :: rest) =
            '.' :: ('(' :: (joinBar (List.map render_field fs) ++ ')' :: displayTail rest)) := by
          simp [displayTail, nextNeedsDot, Segment.isCoalesceSeg, wrapSeg, render_segment,
            List.append_assoc]
        have hnb2 : headIs '[' ('.' :: ('(' ::
            (joinBar (List.map render_field fs) ++ ')' :: displayTail rest))) = false := rfl
        have hnp2 : headIs '('
            ('(' :: (joinBar (List.map render_field fs) ++ ')' :: displayTail rest)) = true := rfl
        rw [hshape]
        rw [parseSteps]
        rw [skipSp_cons '.' _ (by decide)]
        rw [if_neg (by simp)]
        rw [if_neg (by rw [hnb2]; simp)]
        have hds2 : dotSkip ('.' :: ('(' ::
            (joinBar (List.map render_field fs) ++ ')' :: displayTail rest))) =
            '(' :: (joinBar (List.map render_field fs) ++ ')' :: displayTail rest) := by
          show skipSp ('(' :: (joinBar (List.map render_field fs) ++ ')' :: displayTail rest)) = _
          exact skipSp_cons '(' _ (by decide)
        rw [hds2]
        rw [if_pos hnp2]
        show (parseCoalesceFields
            ((joinBar (List.map render_field fs) ++ ')' :: displayTail rest).length + 1)
            (joinBar (List.map render_field fs) ++ ')' :: displayTail rest)).bind _ = _
        rw [hco, Option.some_bind]
        show (parseSteps fu (displayTail rest)).map _ = _
        rw [hrec]
        rfl
      · have hshape : headRender (Segment.coalesce fs :: rest) =
            '(' :: (joinBar (List.map render_field fs) ++ ')' :: displayTail rest) := by
          simp [headRender, wrapSeg, render_segment, List.append_assoc]
        rw [hshape]
        exact main

/-!
## Soundness: every parsed path lies in the parser's image
-/

theorem parseFieldTok_ok (s : Str) (f : Field) (r : Str)
    (h : parseFieldTok s = some (f, r)) : fieldOk f = true := by
  cases s with
  | nil => cases h
  | cons c rest =>
    rw [parseFieldTok] at h
    split_ifs at h with h1 h2
    · revert h
      generalize (rest.dropWhile fun x => !(x == dq)) = t
      intro h
      cases t with
      | nil => cases h
      | cons c2 r2 =>
        rw [quotedEnd] at h
        split_ifs at h with h3
        have h4 := Option.some.inj h
        have hf : f = ⟨rest.takeWhile fun x => !(x == dq), true⟩ :=
          ((Prod.mk.injEq _ _ _ _).mp h4).1.symm
        rw [hf]
        show (List.takeWhile (fun x => !(x == dq)) rest).all (fun x => !(x == dq)) = true
        exact all_takeWhile_self _ rest
    · have h4 := Option.some.inj h
      have hf : f = ⟨(c :: rest).takeWhile isWordChar, false⟩ :=
        ((Prod.mk.injEq _ _ _ _).mp h4).1.symm
      rw [hf]
      show is_valid_field_name ((c :: rest).takeWhile isWordChar) = true
      exact h2

theorem parseCoalesce_ok : ∀ (fuel : Nat) (s : Str) (fs : List Field) (r : Str),
    parseCoalesceFields fuel s = some (fs, r) →
    fs ≠ [] ∧ fs.all fieldOk = true := by
  intro fuel
  induction fuel with
  | zero => intro s fs r h; cases h
  | succ fu ih =>
    intro s fs r h
    rw [parseCoalesceFields] at h
    cases hft : parseFieldTok (skipSp s) with
    | none => rw [hft] at h; cases h
    | some fr =>
      rw [hft, Option.some_bind] at h
      have hok1 : fieldOk fr.1 = true := parseFieldTok_ok (skipSp s) fr.1 fr.2 (by
        rw [hft])
      split_ifs at h with hb1 hb2
      · cases hrec : parseCoalesceFields fu ((skipSp fr.2).drop 1) with
        | none => rw [hrec] at h; cases h
        | some p =>
          rw [hrec, Option.map_some'] at h
          have h4 := Option.some.inj h
          have hfs : fs = fr.1 :: p.1 := ((Prod.mk.injEq _ _ _ _).mp h4).1.symm
          obtain ⟨-, hall⟩ := ih _ p.1 p.2 (by rw [hrec])
          rw [hfs]
          exact ⟨by simp, by simp only [List.all_cons, Bool.and_eq_true]; exact ⟨hok1, hall⟩⟩
      · have h4 := Option.some.inj h
        have hfs : fs = [fr.1] := ((Prod.mk.injEq _ _ _ _).mp h4).1.symm
        rw [hfs]
        refine ⟨by simp, ?_⟩
        simp only [List.all_cons, List.all_nil, Bool.and_eq_true]
        exact ⟨hok1, trivial⟩

theorem parseIndexSeg_ok (s : Str) (i : Int) (r : Str)
    (h : parseIndexSeg s = some (i, r)) : -two63 ≤ i ∧ i < two63 := by
  unfold parseIndexSeg at h
  cases hpi : parseInt (skipSp s) with
  | none => rw [hpi] at h; cases h
  | some p =>
    rw [hpi, Option.some_bind] at h
    split_ifs at h with hr
    revert h
    generalize skipSp p.2 = t
    intro h
    cases t with
    | nil => cases h
    | cons c2 r2 =>
      rw [idxClose] at h
      split_ifs at h with h3
      have h4 := Option.some.inj h
      have hi : i = p.1 := ((Prod.mk.injEq _ _ _ _).mp h4).1.symm
      rw [hi]
      exact hr

theorem parseSteps_ok : ∀ (fuel : Nat) (s : Str) (p : ViewPath),
    parseSteps fuel s = some p → pathOk p = true := by
  intro fuel
  induction fuel with
  | zero => intro s p h; cases h
  | succ fu ih =>
    intro s p h
    rw [parseSteps] at h
    split_ifs at h with he hbr hpar
    · cases Option.some.inj h
      rfl
    · cases hix : parseIndexSeg ((skipSp s).drop 1) with
      | none => rw [hix] at h; cases h
      | some ir =>
        rw [hix, Option.some_bind] at h
        cases hrec : parseSteps fu ir.2 with
        | none => rw [hrec] at h; cases h
        | some segs =>
          rw [hrec, Option.map_some'] at h
          have hp : p = Segment.index ir.1 :: segs := (Option.some.inj h).symm
          rw [hp]
          simp only [pathOk, List.all_cons, Bool.and_eq_true]
          refine ⟨?_, ih ir.2 segs (by rw [hrec])⟩
          show decide (-two63 ≤ ir.1 ∧ ir.1 < two63) = true
          exact decide_eq_true (parseIndexSeg_ok _ ir.1 ir.2 (by rw [hix]))
    · cases hco : parseCoalesceFields (((dotSkip (skipSp s)).drop 1).length + 1)
          ((dotSkip (skipSp s)).drop 1) with
      | none => rw [hco] at h; cases h
      | some fr =>
        rw [hco, Option.some_bind] at h
        cases hrec : parseSteps fu fr.2 with
        | none => rw [hrec] at h; cases h
        | some segs =>
          rw [hrec, Option.map_some'] at h
          have hp : p = Segment.coalesce fr.1 :: segs := (Option.some.inj h).symm
          rw [hp]
          simp only [pathOk, List.all_cons, Bool.and_eq_true]
          obtain ⟨hne, hall⟩ := parseCoalesce_ok _ _ fr.1 fr.2 (by rw [hco])
          refine ⟨?_, ih fr.2 segs (by rw [hrec])⟩
          show (!fr.1.isEmpty && fr.1.all fieldOk) = true
          simp only [Bool.and_eq_true, Bool.not_eq_true']
          exact ⟨by simpa [List.isEmpty_iff] using hne, hall⟩
    · cases hft : parseFieldTok (dotSkip (skipSp s)) with
      | none => rw [hft] at h; cases h
      | some fr =>
        rw [hft, Option.some_bind] at h
        cases hrec : parseSteps fu fr.2 with
        | none => rw [hrec] at h; cases h
        | some segs =>
          rw [hrec, Option.map_some'] at h
          have hp : p = Segment.field fr.1 :: segs := (Option.some.inj h).symm
          rw [hp]
          simp only [pathOk, List.all_cons, Bool.and_eq_true]
          refine ⟨?_, ih fr.2 segs (by rw [hrec])⟩
          show fieldOk fr.1 = true
          exact parseFieldTok_ok _ fr.1 fr.2 (by rw [hft])

/-- C1 round trip: whenever parsing a string succeeds with path `P`, parsing
the Display rendering of `P` succeeds and yields `P` again. -/
theorem round_trip_parse_display (s : Str) (P : ViewPath)
    (h : parse_view_path s = some P) :
    parse_view_path (display P) = some P := by
  have hok : pathOk P = true := parseSteps_ok (s.length + 1) s P h
  unfold parse_view_path
  rw [display_eq_headRender]
  exact (parseSteps_displayTail P ((headRender P).length + 1) hok
    (by have := headRender_len P hok; omega)).2

/-- Witness for `round_trip_parse_display` at the concrete path string
`a.b[-1].("x y" | c)`. -/
theorem round_trip_parse_display_w :
    parse_view_path ("a.b[-1].(\"x y\" | c)".toList) =
      some [Segment.field ⟨['a'], false⟩, Segment.field ⟨['b'], false⟩,
        Segment.index (-1),
        Segment.coalesce [⟨['x', ' ', 'y'], true⟩, ⟨['c'], false⟩]]
  ∧ parse_view_path (display
      [Segment.field ⟨['a'], false⟩, Segment.field ⟨['b'], false⟩,
        Segment.index (-1),
        Segment.coalesce [⟨['x', ' ', 'y'], true⟩, ⟨['c'], false⟩]]) =
      some [Segment.field ⟨['a'], false⟩, Segment.field ⟨['b'], false⟩,
        Segment.index (-1),
        Segment.coalesce [⟨['x', ' ', 'y'], true⟩, ⟨['c'], false⟩]] :=
  ⟨rfl, round_trip_parse_display ("a.b[-1].(\"x y\" | c)".toList) _ rfl⟩

/-!
## Simple facts about the query engine
-/

theorem usizeCast_nonneg_small (i : Int) (h0 : 0 ≤ i) (h1 : i < two64) :
    usizeCast i = i.toNat := by
  unfold usizeCast two64 at *
  omega

theorem usizeCast_neg_large (i : Int) (h0 : -two63 ≤ i) (h1 : i < 0) :
    two63n ≤ usizeCast i := by
  unfold usizeCast two63 two63n two64 at *
  omega

/-- C10: resolving the empty (root) path yields the document itself. -/
theorem root_path_resolution (v : Value) : search_path v [] = some v := rfl

/-- C5: coalesce resolution only succeeds on objects; on an object it returns
the member named by the first listed field that is present, and returns
not-found exactly when no listed field is a member. -/
theorem coalesce_resolution (fs : List Field) :
    (∀ v, v.isObjectV = false → search_segment v (Segment.coalesce fs) = none)
  ∧ (∀ m, search_segment (Value.object m) (Segment.coalesce fs) =
      (fs.find? fun f => (lookup m f.name).isSome).bind fun f => lookup m f.name)
  ∧ (∀ m, search_segment (Value.object m) (Segment.coalesce fs) = none ↔
      ∀ f ∈ fs, lookup m f.name = none) := by
  refine ⟨?_, ?_, ?_⟩
  · intro v hv
    cases v <;> simp_all [search_segment, Value.isObjectV]
  · intro m
    show coalesceLookup m fs = _
    induction fs with
    | nil => simp [coalesceLookup]
    | cons f rest ih =>
      cases hf : lookup m f.name with
      | some v => simp [coalesceLookup, hf, List.find?]
      | none => simpa [coalesceLookup, hf, List.find?] using ih
  · intro m
    show coalesceLookup m fs = none ↔ _
    induction fs with
    | nil => simp [coalesceLookup]
    | cons f rest ih =>
      cases hf : lookup m f.name with
      | some v => simp [coalesceLookup, hf]
      | none => simpa [coalesceLookup, hf] using ih

/-- Witness for `coalesce_resolution` at the spec's example: document `{y: 7}`
and path `(x|y)` resolve to `7`, and a non-object never matches. -/
theorem coalesce_resolution_w :
    search_segment (Value.object [(['y'], Value.num 7)])
      (Segment.coalesce [⟨['x'], false⟩, ⟨['y'], false⟩]) = some (Value.num 7)
  ∧ search_segment Value.null
      (Segment.coalesce [⟨['x'], false⟩, ⟨['y'], false⟩]) = none := by
  constructor
  · have h := (coalesce_resolution [⟨['x'], false⟩, ⟨['y'], false⟩]).2.1
      [(['y'], Value.num 7)]
    simpa using h
  · exact (coalesce_resolution [⟨['x'], false⟩, ⟨['y'], false⟩]).1 Value.null rfl

/-- C6: index resolution only succeeds on arrays; the signed index is cast to
an unsigned offset modulo 2^64, so an in-range non-negative index yields that
element while any negative index (whose cast value is at least 2^63, above any
real array length) and any too-large index yield not-found. -/
theorem index_resolution (i : Int) (a : List Value) (hlen : a.length < two63n) :
    (∀ v, v.isArrayV = false → search_segment v (Segment.index i) = none)
  ∧ (0 ≤ i → i < (a.length : Int) →
      search_segment (Value.array a) (Segment.index i) = a.get? i.toNat
      ∧ (a.get? i.toNat).isSome = true)
  ∧ (-two63 ≤ i → i < 0 → search_segment (Value.array a) (Segment.index i) = none)
  ∧ ((a.length : Int) ≤ i → i < two63 → search_segment (Value.array a) (Segment.index i) = none) := by
  refine ⟨?_, ?_, ?_, ?_⟩
  · intro v hv
    cases v <;> simp_all [search_segment, Value.isArrayV]
  · intro h0 h1
    have hc : usizeCast i = i.toNat := by
      apply usizeCast_nonneg_small i h0
      unfold two64
      unfold two63n at hlen
      omega
    have hlt : i.toNat < a.length := by omega
    constructor
    · simp only [search_segment, hc, hlt, dite_true]
      exact (List.get?_eq_get hlt).symm
    · rw [List.get?_eq_get hlt]
      rfl
  · intro h0 h1
    have hc := usizeCast_neg_large i h0 h1
    have : ¬ (usizeCast i < a.length) := by omega
    simp [search_segment, this]
  · intro h0 h1
    have hc : usizeCast i = i.toNat := by
      apply usizeCast_nonneg_small i (by omega)
      unfold two64
      unfold two63 at h1
      omega
    have : ¬ (usizeCast i < a.length) := by
      rw [hc]
      omega
    simp [search_segment, this]

/-- Witness for `index_resolution`: against the one-element array `[null]`,
index `-1` resolves to not-found and index `0` resolves to the element. -/
theorem index_resolution_w :
    search_segment (Value.array [Value.null]) (Segment.index (-1)) = none
  ∧ search_segment (Value.array [Value.null]) (Segment.index 0) = some Value.null := by
  constructor
  · exact (index_resolution (-1) [Value.null] (by decide)).2.2.1 (by decide) (by decide)
  · have h := ((index_resolution 0 [Value.null] (by decide)).2.1 (by decide) (by decide)).1
    simpa using h

/-- The per-position property C7 states: every segment of the candidate prefix
equals the segment of the path at the same position. -/
def segwiseMatch (needle p : ViewPath) : Prop :=
  ∀ j, j < needle.length → needle.get? j = p.get? j

/-- C7 counterexample: `starts_with` zips the candidate against the path and
truncates, so the root path "starts with" the nonempty path `[0]`, although
position 0 of the candidate has no matching segment in the path. -/
theorem starts_with_cex :
    starts_with [] [Segment.index 0] = true ∧ ¬ segwiseMatch [Segment.index 0] [] := by
  constructor
  · rfl
  · intro h
    have h0 := h 0 (by decide)
    simp [List.get?] at h0

/-- C7 amended: `starts_with` compares only the zipped (truncated) prefix:
it returns true iff the candidate truncated to the path's length equals the
path truncated to the candidate's length.  This coincides with the genuine
prefix property only when the candidate is no longer than the path. -/
theorem starts_with_truncated (p needle : ViewPath) :
    starts_with p needle = true ↔ needle.take p.length = p.take needle.length := by
  induction needle generalizing p with
  | nil => simp [starts_with]
  | cons n ns ih =>
    cases p with
    | nil => simp [starts_with]
    | cons x xs =>
      have h := ih xs
      simp only [starts_with, List.zip_cons_cons, List.all_cons, Bool.and_eq_true,
        decide_eq_true_eq, List.length_cons, List.take_succ_cons, List.cons.injEq] at *
      constructor
      · rintro ⟨h1, h2⟩
        exact ⟨h1, h.mp h2⟩
      · rintro ⟨h1, h2⟩
        exact ⟨h1, h.mpr h2⟩

/-- C3: when construction succeeds, `requires_quoting` is true iff the text is
quote-wrapped (and then the name is the text without its outer quotes) or the
text fails the identifier grammar; otherwise the flag is false and the name is
the text unchanged. -/
theorem field_quoting_flag (t : Str) (f : Field) (h : fieldFrom t = some f) :
    (f.requires_quoting = true ↔
      ((t.head? = some dq ∧ t.getLast? = some dq) ∨ is_valid_field_name t = false))
  ∧ ((t.head? = some dq ∧ t.getLast? = some dq) → f.name = (t.drop 1).dropLast)
  ∧ (¬(t.head? = some dq ∧ t.getLast? = some dq) → f.name = t)
  ∧ (¬(t.head? = some dq ∧ t.getLast? = some dq) → is_valid_field_name t = true →
      f.requires_quoting = false) := by
  unfold fieldFrom at h
  by_cases h1 : (t.head? = some dq ∧ t.getLast? = some dq)
  · rw [if_pos h1] at h
    by_cases h2 : 2 ≤ t.length
    · rw [if_pos h2] at h
      cases h
      exact ⟨by simp [h1], fun _ => rfl, fun hc => absurd h1 hc, fun hc _ => absurd h1 hc⟩
    · rw [if_neg h2] at h
      cases h
  · rw [if_neg h1] at h
    cases hv : is_valid_field_name t with
    | true =>
      rw [hv] at h
      simp only [if_true] at h
      cases h
      refine ⟨by simp [h1, hv], fun hc => absurd hc h1, fun _ => rfl, fun _ _ => rfl⟩
    | false =>
      rw [hv] at h
      simp only [Bool.false_eq_true, if_false] at h
      cases h
      refine ⟨by simp [hv], fun hc => absurd hc h1, fun _ => rfl, ?_⟩
      intro _ hv2
      exact Bool.noConfusion hv2

/-- Witness for `field_quoting_flag` at `Field::from("foo bar")`: construction
succeeds with the name unchanged and the quoting flag set. -/
theorem field_quoting_flag_w :
    fieldFrom ("foo bar".toList) = some ⟨"foo bar".toList, true⟩
  ∧ (Field.mk ("foo bar".toList) true).requires_quoting = true := by
  refine ⟨rfl, ?_⟩
  exact ((field_quoting_flag ("foo bar".toList) ⟨"foo bar".toList, true⟩ rfl).1).mpr
    (Or.inr (by decide))

/-- C9 (code behavior at the failing input): on the text consisting of a
single double-quote character, which begins and ends with a quote, the slice
`name[1..len-1]` is the reversed range `1..0` and `Field::from` /
`FieldBuf::from` panic instead of returning a field. -/
theorem field_from_single_quote_panics : fieldFrom ("\"".toList) = none := rfl

/-- C8: `nest_find_by` returns `Some` of an empty list for no document and no
predicate (zero collected matches always yield `None`), and a `Null` document
yields `None` for every predicate, even one accepting every value. -/
theorem nest_none_vs_empty :
    (∀ pred, nest_find_by Value.null pred = some none)
  ∧ (∀ v pred l, nest_find_by v pred = some (some l) → l ≠ []) := by
  constructor
  · intro pred
    rfl
  · intro v pred l h
    cases v with
    | null => cases h
    | bool b =>
      unfold nest_find_by at h
      split_ifs at h with hp
      · cases Option.some.inj (Option.some.inj h)
        simp
      · cases Option.some.inj h
    | num n =>
      unfold nest_find_by at h
      split_ifs at h with hp
      · cases Option.some.inj (Option.some.inj h)
        simp
      · cases Option.some.inj h
    | str s =>
      unfold nest_find_by at h
      split_ifs at h with hp
      · cases Option.some.inj (Option.some.inj h)
        simp
      · cases Option.some.inj h
    | array a =>
      unfold nest_find_by at h
      cases hn : nfArr pred a 0 with
      | none =>
        rw [hn] at h
        cases h
      | some ret =>
        rw [hn] at h
        have hc : collapseRet ret = some l := Option.some.inj h
        unfold collapseRet at hc
        split_ifs at hc with hl
        cases Option.some.inj hc
        intro hnil
        rw [hnil] at hl
        simp at hl
    | object m =>
      unfold nest_find_by at h
      cases hn : nfObj pred m with
      | none =>
        rw [hn] at h
        cases h
      | some ret =>
        rw [hn] at h
        have hc : collapseRet ret = some l := Option.some.inj h
        unfold collapseRet at hc
        split_ifs at hc with hl
        cases Option.some.inj hc
        intro hnil
        rw [hnil] at hl
        simp at hl

/-- Witness for `nest_none_vs_empty`: a scalar document with an
always-accepting predicate produces one nonempty match list. -/
theorem nest_none_vs_empty_w :
    nest_find_by (Value.bool true) (fun _ => true) =
      some (some [([], Value.bool true)])
  ∧ ([([], Value.bool true)] : Matches) ≠ [] :=
  ⟨rfl, nest_none_vs_empty.2 (Value.bool true) (fun _ => true)
    [([], Value.bool true)] rfl⟩

/-!
## C2: search paths reach their matches

`nest_find_by` runs every object key through `Field::from` before pushing it
onto the match's path, so a quote-wrapped key is stripped and the recorded
path no longer resolves (see `nest_find_reaches_cex`).  For documents without
quote-wrapped keys — and with the representation invariants every real
serde_json document has (unique keys per object, array lengths below 2^63) —
every recorded (path, value) pair does resolve to its value.
-/

/-- Whether a text begins and ends with a double quote (the stripping
condition of `Field::from`). -/
def quoteWrapped (s : Str) : Bool := (s.head? == some dq) && (s.getLast? == some dq)

mutual

/-- Representation invariants of a real serde_json document: object key lists
have no duplicates (serde_json maps are keyed), and array lengths are below
2^63 (Rust allocations cannot exceed `isize::MAX` bytes). -/
def valueWf : Value → Bool
  | .null => true
  | .bool _ => true
  | .num _ => true
  | .str _ => true
  | .array a => decide (a.length < two63n) && listWf a
  | .object m => decide ((m.map fun e => e.1).Nodup) && memsWf m

def listWf : List Value → Bool
  | [] => true
  | v :: rest => valueWf v && listWf rest

def memsWf : List (Str × Value) → Bool
  | [] => true
  | (_, v) :: rest => valueWf v && memsWf rest

end

mutual

/-- No object key anywhere in the document is quote-wrapped. -/
def noQuotedKeys : Value → Bool
  | .array a => listNoQ a
  | .object m => memsNoQ m
  | _ => true

def listNoQ : List Value → Bool
  | [] => true
  | v :: rest => noQuotedKeys v && listNoQ rest

def memsNoQ : List (Str × Value) → Bool
  | [] => true
  | (k, v) :: rest => !(quoteWrapped k) && (noQuotedKeys v && memsNoQ rest)

end

theorem listWf_iff (a : List Value) :
    listWf a = true ↔ ∀ w ∈ a, valueWf w = true := by
  induction a with
  | nil => simp [listWf]
  | cons v rest ih => simp [listWf, Bool.and_eq_true, ih]

theorem memsWf_iff (m : List (Str × Value)) :
    memsWf m = true ↔ ∀ e ∈ m, valueWf e.2 = true := by
  induction m with
  | nil => simp [memsWf]
  | cons e rest ih =>
    obtain ⟨k, v⟩ := e
    simp [memsWf, Bool.and_eq_true, ih]

theorem listNoQ_iff (a : List Value) :
    listNoQ a = true ↔ ∀ w ∈ a, noQuotedKeys w = true := by
  induction a with
  | nil => simp [listNoQ]
  | cons v rest ih => simp [listNoQ, Bool.and_eq_true, ih]

theorem memsNoQ_iff (m : List (Str × Value)) :
    memsNoQ m = true ↔
      ∀ e ∈ m, quoteWrapped e.1 = false ∧ noQuotedKeys e.2 = true := by
  induction m with
  | nil => simp [memsNoQ]
  | cons e rest ih =>
    obtain ⟨k, v⟩ := e
    simp only [memsNoQ, Bool.and_eq_true, Bool.not_eq_true', ih, List.mem_cons]
    constructor
    · rintro ⟨h1, h2, h3⟩ e he
      rcases he with rfl | he
      · exact ⟨h1, h2⟩
      · exact h3 e he
    · intro h
      refine ⟨(h (k, v) (Or.inl rfl)).1, (h (k, v) (Or.inl rfl)).2, fun e he => h e (Or.inr he)⟩

theorem wf_array (a : List Value) (h : valueWf (.array a) = true) :
    a.length < two63n ∧ ∀ w ∈ a, valueWf w = true := by
  have h2 : (decide (a.length < two63n) && listWf a) = true := h
  simp only [Bool.and_eq_true, decide_eq_true_eq] at h2
  exact ⟨h2.1, (listWf_iff a).mp h2.2⟩

theorem wf_object (m : List (Str × Value)) (h : valueWf (.object m) = true) :
    (m.map fun e => e.1).Nodup ∧ ∀ e ∈ m, valueWf e.2 = true := by
  have h2 : (decide ((m.map fun e => e.1).Nodup) && memsWf m) = true := h
  simp only [Bool.and_eq_true, decide_eq_true_eq] at h2
  exact ⟨h2.1, (memsWf_iff m).mp h2.2⟩

theorem nq_array (a : List Value) (h : noQuotedKeys (.array a) = true) :
    ∀ w ∈ a, noQuotedKeys w = true :=
  (listNoQ_iff a).mp h

theorem nq_object (m : List (Str × Value)) (h : noQuotedKeys (.object m) = true) :
    ∀ e ∈ m, quoteWrapped e.1 = false ∧ noQuotedKeys e.2 = true :=
  (memsNoQ_iff m).mp h

/-- `Field::from` on a text that is not quote-wrapped keeps the text as the
name and derives the flag from the identifier grammar. -/
theorem fieldFrom_not_wrapped (k : Str) (hq : quoteWrapped k = false) :
    fieldFrom k = some ⟨k, !(is_valid_field_name k)⟩ := by
  unfold fieldFrom
  rw [if_neg (by
    rintro ⟨h1, h2⟩
    unfold quoteWrapped at hq
    rw [h1, h2] at hq
    simp at hq)]
  cases hv : is_valid_field_name k with
  | true => rw [if_pos rfl]; rfl
  | false => rw [if_neg (by simp)]; rfl

/-- Member lookup by key is determined by membership when keys are unique. -/
theorem lookup_nodup (m : List (Str × Value)) (k : Str) (v : Value)
    (hm : (m.map fun e => e.1).Nodup) (hk : (k, v) ∈ m) :
    lookup m k = some v := by
  induction m with
  | nil => cases hk
  | cons e rest ih =>
    obtain ⟨k2, v2⟩ := e
    simp only [List.map_cons, List.nodup_cons] at hm
    cases hbeq : (k2 == k)
    · have hne : k2 ≠ k := by
        intro hkk
        rw [hkk] at hbeq
        simp at hbeq
      rcases List.mem_cons.mp hk with heq | hmem
      · cases heq
        exact absurd rfl hne
      · unfold lookup
        rw [List.find?_cons_of_neg _ (by simpa using hbeq)]
        exact ih hm.2 hmem
    · have hkk : k2 = k := by simpa using hbeq
      rcases List.mem_cons.mp hk with heq | hmem
      · cases heq
        unfold lookup
        rw [List.find?_cons_of_pos _ (by simp)]
        rfl
      · exfalso
        apply hm.1
        rw [hkk]
        exact List.mem_map.mpr ⟨(k, v), hmem, rfl⟩

theorem usizeCast_isizeOfNat (j : Nat) (h : j < two63n) :
    usizeCast (isizeOfNat j) = j := by
  unfold usizeCast isizeOfNat two63 two63n two64 at *
  omega

/-!
## C4: the Display separator algorithm as the claim words it
-/

/-- The segment rendering as C4 words it: an Index is wrapped in its own
`[ ]` brackets, a Coalesce is its fields joined by `" | "` inside
parentheses, a Field is its own rendering. -/
def claimSegRender : Segment → Str
  | .field f => render_field f
  | .index i => '[' :: intStr i ++ [']']
  | .coalesce fs => '(' :: joinBar (fs.map render_field) ++ [')']

/-- The path rendering as C4 words it: segments left to right, each segment's
own rendering followed by `"."` exactly when a next segment exists and is a
Field or a Coalesce; the empty path renders as the empty string. -/
def claimRender : ViewPath → Str
  | [] => []
  | s :: rest =>
    claimSegRender s ++
      (match rest.head? with
       | some (.field _) => ['.']
       | some (.coalesce _) => ['.']
       | _ => []) ++
      claimRender rest

/-- C4: the `Display` implementation's peek-driven loop renders exactly as the
claim describes position by position. -/
theorem display_separator_algorithm :
    (∀ p : ViewPath, display p = claimRender p) ∧ display [] = [] := by
  refine ⟨?_, rfl⟩
  intro p
  induction p with
  | nil => rfl
  | cons s rest ih =>
    cases rest with
    | nil =>
      cases s <;> simp [display, claimRender, wrapSeg, claimSegRender, render_segment]
    | cons s2 rest2 =>
      rw [display, ih]
      cases s2 <;>
        cases s <;>
          simp [claimRender, wrapSeg, claimSegRender, render_segment, nextNeedsDot,
            Segment.isFieldSeg, Segment.isCoalesceSeg, List.append_assoc]

/-- The property C2 asserts of a subtree: every (path, value) pair collected
by `nest_find_by` resolves back to its value through `search_path`, and the
predicate accepts that value. -/
def ReachP (pred : Value → Bool) (v : Value) : Prop :=
  valueWf v = true → noQuotedKeys v = true →
  ∀ (l : Matches) (p : ViewPath) (val : Value),
    nest_find_by v pred = some (some l) → (p, val) ∈ l →
    search_path v p = some val ∧ pred val = true

theorem pushKey_not_wrapped (k : Str) (hq : quoteWrapped k = false) (paths : Matches) :
    pushKey k paths =
      some (paths.map fun pv =>
        (Segment.field ⟨k, !(is_valid_field_name k)⟩ :: pv.1, pv.2)) := by
  induction paths with
  | nil => rfl
  | cons pv rest ih =>
    rw [pushKey, fieldFrom_not_wrapped k hq, Option.some_bind, ih, Option.map_some']
    rfl

theorem nfArrSpec (pred : Value → Bool) :
    ∀ (a : List Value) (i0 : Nat) (ret : Matches),
    nfArr pred a i0 = some ret →
    (∀ w ∈ a, ReachP pred w ∧ valueWf w = true ∧ noQuotedKeys w = true) →
    ∀ p val, (p, val) ∈ ret →
    ∃ j w p2, a.get? j = some w ∧
      p = Segment.index (isizeOfNat (i0 + j)) :: p2 ∧
      search_path w p2 = some val ∧ pred val = true := by
  intro a
  induction a with
  | nil =>
    intro i0 ret h hmem p val hp
    have hr : ([] : Matches) = ret := Option.some.inj h
    rw [← hr] at hp
    cases hp
  | cons v rest ih =>
    intro i0 ret h hmem p val hp
    rw [nfArr] at h
    cases hv : nest_find_by v pred with
    | none => rw [hv] at h; cases h
    | some o =>
      rw [hv] at h
      cases o with
      | none =>
        have h2 : nfArr pred rest (i0 + 1) = some ret := h
        obtain ⟨j, w, p2, hg, hpj, hsp, hpred⟩ := ih (i0 + 1) ret h2
          (fun w hw => hmem w (List.mem_cons_of_mem v hw)) p val hp
        refine ⟨j + 1, w, p2, hg, ?_, hsp, hpred⟩
        have harith : i0 + 1 + j = i0 + (j + 1) := by omega
        rw [hpj, harith]
      | some paths =>
        have h2 : (nfArr pred rest (i0 + 1)).map (fun acc =>
            (paths.map fun pv => (Segment.index (isizeOfNat i0) :: pv.1, pv.2)) ++ acc) =
            some ret := h
        cases hrest : nfArr pred rest (i0 + 1) with
        | none =>
          rw [hrest] at h2
          cases h2
        | some acc =>
          rw [hrest, Option.map_some'] at h2
          have hret := Option.some.inj h2
          rw [← hret] at hp
          rcases List.mem_append.mp hp with hin | hin
          · obtain ⟨pv, hpv, heq⟩ := List.mem_map.mp hin
            obtain ⟨hm, hwf, hnq⟩ := hmem v (List.mem_cons_self v rest)
            have hres := hm hwf hnq paths pv.1 pv.2 hv (by rw [Prod.mk.eta]; exact hpv)
            obtain ⟨hp1, hp2⟩ := (Prod.mk.injEq _ _ _ _).mp heq
            refine ⟨0, v, pv.1, rfl, ?_, ?_, ?_⟩
            · rw [Nat.add_zero, ← hp1]
            · rw [← hp2]
              exact hres.1
            · rw [← hp2]
              exact hres.2
          · obtain ⟨j, w, p2, hg, hpj, hsp, hpred⟩ := ih (i0 + 1) acc hrest
              (fun w hw => hmem w (List.mem_cons_of_mem v hw)) p val hin
            refine ⟨j + 1, w, p2, hg, ?_, hsp, hpred⟩
            have harith : i0 + 1 + j = i0 + (j + 1) := by omega
            rw [hpj, harith]

theorem nfObjSpec (pred : Value → Bool) :
    ∀ (m : List (Str × Value)) (ret : Matches),
    nfObj pred m = some ret →
    (∀ e ∈ m, ReachP pred e.2 ∧ valueWf e.2 = true ∧ noQuotedKeys e.2 = true ∧
      quoteWrapped e.1 = false) →
    ∀ p val, (p, val) ∈ ret →
    ∃ k v2 p2, (k, v2) ∈ m ∧
      p = Segment.field ⟨k, !(is_valid_field_name k)⟩ :: p2 ∧
      search_path v2 p2 = some val ∧ pred val = true := by
  intro m
  induction m with
  | nil =>
    intro ret h hmem p val hp
    have hr : ([] : Matches) = ret := Option.some.inj h
    rw [← hr] at hp
    cases hp
  | cons e rest ih =>
    obtain ⟨k, v⟩ := e
    intro ret h hmem p val hp
    rw [nfObj] at h
    cases hv : nest_find_by v pred with
    | none => rw [hv] at h; cases h
    | some o =>
      rw [hv] at h
      cases o with
      | none =>
        have h2 : nfObj pred rest = some ret := h
        obtain ⟨k2, v2, p2, hm2, hpj, hsp, hpred⟩ := ih ret h2
          (fun e he => hmem e (List.mem_cons_of_mem _ he)) p val hp
        exact ⟨k2, v2, p2, List.mem_cons_of_mem _ hm2, hpj, hsp, hpred⟩
      | some paths =>
        obtain ⟨hmv, hwfv, hnqv, hqk⟩ := hmem (k, v) (List.mem_cons_self _ _)
        have h2 : (pushKey k paths).bind (fun paths2 =>
            (nfObj pred rest).map fun acc => paths2 ++ acc) = some ret := h
        rw [pushKey_not_wrapped k hqk paths, Option.some_bind] at h2
        cases hrest : nfObj pred rest with
        | none =>
          rw [hrest] at h2
          cases h2
        | some acc =>
          rw [hrest, Option.map_some'] at h2
          have hret := Option.some.inj h2
          rw [← hret] at hp
          rcases List.mem_append.mp hp with hin | hin
          · obtain ⟨pv, hpv, heq⟩ := List.mem_map.mp hin
            have hres := hmv hwfv hnqv paths pv.1 pv.2 hv (by rw [Prod.mk.eta]; exact hpv)
            obtain ⟨hp1, hp2⟩ := (Prod.mk.injEq _ _ _ _).mp heq
            refine ⟨k, v, pv.1, List.mem_cons_self _ _, ?_, ?_, ?_⟩
            · rw [← hp1]
            · rw [← hp2]
              exact hres.1
            · rw [← hp2]
              exact hres.2
          · obtain ⟨k2, v2, p2, hm2, hpj, hsp, hpred⟩ := ih acc hrest
              (fun e he => hmem e (List.mem_cons_of_mem _ he)) p val hin
            exact ⟨k2, v2, p2, List.mem_cons_of_mem _ hm2, hpj, hsp, hpred⟩

theorem nestReach : ∀ (n : Nat) (v : Value), sizeOf v < n →
    ∀ pred : Value → Bool, ReachP pred v := by
  intro n
  induction n with
  | zero => intro v h; omega
  | succ n ihn =>
    intro v hsz pred hwf hnq l p val h hmem
    cases v with
    | null =>
      have h2 : (some none : Option (Option Matches)) = some (some l) := h
      cases Option.some.inj h2
    | bool b =>
      unfold nest_find_by at h
      split_ifs at h with hpred
      · have h2 := Option.some.inj (Option.some.inj h)
        rw [← h2] at hmem
        have heq := List.mem_singleton.mp hmem
        obtain ⟨hp1, hp2⟩ := (Prod.mk.injEq _ _ _ _).mp heq
        refine ⟨?_, ?_⟩
        · rw [hp1, hp2]
          rfl
        · rw [hp2]
          exact hpred
      · cases Option.some.inj h
    | num n2 =>
      unfold nest_find_by at h
      split_ifs at h with hpred
      · have h2 := Option.some.inj (Option.some.inj h)
        rw [← h2] at hmem
        have heq := List.mem_singleton.mp hmem
        obtain ⟨hp1, hp2⟩ := (Prod.mk.injEq _ _ _ _).mp heq
        refine ⟨?_, ?_⟩
        · rw [hp1, hp2]
          rfl
        · rw [hp2]
          exact hpred
      · cases Option.some.inj h
    | str s2 =>
      unfold nest_find_by at h
      split_ifs at h with hpred
      · have h2 := Option.some.inj (Option.some.inj h)
        rw [← h2] at hmem
        have heq := List.mem_singleton.mp hmem
        obtain ⟨hp1, hp2⟩ := (Prod.mk.injEq _ _ _ _).mp heq
        refine ⟨?_, ?_⟩
        · rw [hp1, hp2]
          rfl
        · rw [hp2]
          exact hpred
      · cases Option.some.inj h
    | array a =>
      unfold nest_find_by at h
      cases hn : nfArr pred a 0 with
      | none => rw [hn] at h; cases h
      | some ret =>
        rw [hn, Option.map_some'] at h
        have hcol : collapseRet ret = some l := Option.some.inj h
        unfold collapseRet at hcol
        split_ifs at hcol with hlen
        have hlr := Option.some.inj hcol
        obtain ⟨hla, hwfa⟩ := wf_array a hwf
        have hnqa := nq_array a hnq
        have hszw : ∀ w ∈ a, sizeOf w < n := by
          intro w hw
          have h1 := List.sizeOf_lt_of_mem hw
          have h2 : sizeOf (Value.array a) = 1 + sizeOf a := by simp
          omega
        obtain ⟨j, w, p2, hg, hpj, hsp, hpred⟩ := nfArrSpec pred a 0 ret hn
          (fun w hw => ⟨ihn w (hszw w hw) pred, hwfa w hw, hnqa w hw⟩) p val
          (by rw [hlr]; exact hmem)
        have hj : j < a.length := by
          by_contra hc
          rw [List.get?_eq_none.mpr (by omega)] at hg
          cases hg
        have hcast : usizeCast (isizeOfNat (0 + j)) = j := by
          have h0j : 0 + j = j := by omega
          rw [h0j]
          exact usizeCast_isizeOfNat j (by unfold two63n at *; omega)
        refine ⟨?_, hpred⟩
        rw [hpj, search_path]
        have hseg : search_segment (Value.array a)
            (Segment.index (isizeOfNat (0 + j))) = some w := by
          show (if hlt : usizeCast (isizeOfNat (0 + j)) < a.length
              then some (a.get ⟨usizeCast (isizeOfNat (0 + j)), hlt⟩) else none) = some w
          simp only [hcast]
          rw [dif_pos hj]
          rw [← List.get?_eq_get hj]
          exact hg
        rw [hseg, Option.some_bind]
        exact hsp
    | object m =>
      unfold nest_find_by at h
      cases hn : nfObj pred m with
      | none => rw [hn] at h; cases h
      | some ret =>
        rw [hn, Option.map_some'] at h
        have hcol : collapseRet ret = some l := Option.some.inj h
        unfold collapseRet at hcol
        split_ifs at hcol with hlen
        have hlr := Option.some.inj hcol
        obtain ⟨hnd, hwfm⟩ := wf_object m hwf
        have hnqm := nq_object m hnq
        have hszw : ∀ e ∈ m, sizeOf e.2 < n := by
          intro e he
          have h1 := List.sizeOf_lt_of_mem he
          have h2 : sizeOf (Value.object m) = 1 + sizeOf m := by simp
          obtain ⟨k2, v2⟩ := e
          have h3 : sizeOf ((k2, v2) : Str × Value) = 1 + sizeOf k2 + sizeOf v2 := by simp
          simp only at h1 ⊢
          omega
        obtain ⟨k, v2, p2, hm2, hpj, hsp, hpred⟩ := nfObjSpec pred m ret hn
          (fun e he => ⟨ihn e.2 (hszw e he) pred, hwfm e he, (hnqm e he).2, (hnqm e he).1⟩)
          p val (by rw [hlr]; exact hmem)
        refine ⟨?_, hpred⟩
        rw [hpj, search_path]
        have hseg : search_segment (Value.object m)
            (Segment.field ⟨k, !(is_valid_field_name k)⟩) = some v2 := by
          show lookup m k = some v2
          exact lookup_nodup m k v2 hnd hm2
        rw [hseg, Option.some_bind]
        exact hsp

/-- C2 counterexample: on the document whose single key is the three-character
text `"x"` (a quote-wrapped key), `nest_find_by` strips the quotes while
recording the path, and the recorded path does not resolve. -/
theorem nest_find_reaches_cex :
    nest_find_by (Value.object [([dq, 'x', dq], Value.num 1)]) (fun _ => true) =
      some (some [([Segment.field ⟨['x'], true⟩], Value.num 1)])
  ∧ search_path (Value.object [([dq, 'x', dq], Value.num 1)])
      [Segment.field ⟨['x'], true⟩] = none :=
  ⟨rfl, rfl⟩

/-- C2 amended: on documents with no quote-wrapped object key and with the
representation invariants of real serde_json documents (unique keys, array
lengths below 2^63), every (path, value) pair returned by `nest_find_by`
satisfies `search_path doc path = some value`, and the predicate accepts the
value. -/
theorem nest_find_reaches (v : Value) (pred : Value → Bool)
    (hwf : valueWf v = true) (hnq : noQuotedKeys v = true)
    (l : Matches) (p : ViewPath) (val : Value)
    (h : nest_find_by v pred = some (some l)) (hmem : (p, val) ∈ l) :
    search_path v p = some val ∧ pred val = true :=
  nestReach (sizeOf v + 1) v (by omega) pred hwf hnq l p val h hmem

/-- Witness for `nest_find_reaches` on the document `{a: [true]}` with an
always-true predicate: the single collected path `a[0]` resolves back to the
matched value. -/
theorem nest_find_reaches_w :
    valueWf (Value.object [(['a'], Value.array [Value.bool true])]) = true
  ∧ noQuotedKeys (Value.object [(['a'], Value.array [Value.bool true])]) = true
  ∧ nest_find_by (Value.object [(['a'], Value.array [Value.bool true])]) (fun _ => true) =
      some (some [([Segment.field ⟨['a'], false⟩, Segment.index 0], Value.bool true)])
  ∧ search_path (Value.object [(['a'], Value.array [Value.bool true])])
      [Segment.field ⟨['a'], false⟩, Segment.index 0] = some (Value.bool true) :=
  ⟨rfl, rfl, rfl,
    (nest_find_reaches (Value.object [(['a'], Value.array [Value.bool true])])
      (fun _ => true) rfl rfl
      [([Segment.field ⟨['a'], false⟩, Segment.index 0], Value.bool true)]
      [Segment.field ⟨['a'], false⟩, Segment.index 0] (Value.bool true)
      rfl (List.mem_singleton.mpr rfl)).1⟩

end Ebar
